import Mathlib

/-!
Verification development for the deployspec compiler
(`core_deployspec/compiler.py` and `core_deployspec/handler.py`).

The Python source is shallowly embedded: dictionaries become association
lists, in-place mutation of `deployment_details.tags` becomes explicit
state passing, exceptions become `Except`/`Option`, and the regular
expression used by `__apply_syntax_update` is modelled as an executable
matcher with Python `re.sub` semantics (leftmost match, greedy
quantifiers, negative lookahead).
-/

namespace DeploySpecCompiler

/-! ### Small string utilities (Python `in`, prefix test) -/

/-- `startsWithL n h` : the list `n` is an initial segment of `h`. -/
def startsWithL : List Char → List Char → Bool
  | [], _ => true
  | _ :: _, [] => false
  | a :: as, b :: bs => a == b && startsWithL as bs

/-- `hasSub n h` : `n` occurs as a contiguous sublist of `h`
(Python's `n in h` on strings). -/
def hasSub : List Char → List Char → Bool
  | n, [] => startsWithL n []
  | n, c :: t => startsWithL n (c :: t) || hasSub n t

/-- Python `needle in hay` for strings. -/
def strIn (needle hay : String) : Bool := hasSub needle.data hay.data

/-! ### Association lists modelling Python `dict`

`aset` updates an existing key in place (keeping its position) or appends
a new binding, exactly like assignment into a Python `dict`; `aupd`
models `dict.update`. -/

def aget {α : Type} : List (String × α) → String → Option α
  | [], _ => none
  | (k', v) :: t, k => if k' = k then some v else aget t k

def aset {α : Type} : List (String × α) → String → α → List (String × α)
  | [], k, v => [(k, v)]
  | (k', v') :: t, k, v => if k' = k then (k, v) :: t else (k', v') :: aset t k v

def aupd {α : Type} (m u : List (String × α)) : List (String × α) :=
  u.foldl (fun acc kv => aset acc kv.1 kv.2) m

/-! ### Parameter values

Parameter values arriving in `spec.parameters` are arbitrary; the code
coerces them with `str(...)` before the regex substitution.  We model
strings and (as a representative non-string) integers. -/

inductive PVal : Type
  | s (chars : List Char)
  | i (n : Int)
  deriving DecidableEq, Repr

/-- Python `str(...)` on a parameter value. -/
def pyStr : PVal → List Char
  | .s cs => cs
  | .i n => (toString n).data

abbrev PMap := List (String × PVal)

/-! ### The legacy-syntax regex of `__apply_syntax_update`

Pattern (Python): `\x7b\x7b (?!core.)([^.]*)\.(.*) \x7d\x7d`
Replacement: `\x7b\x7b "\1/\2" | lookup \x7d\x7d` (note: double quotes in
the source).  We model `re.sub`: scan left to right; at each position try
to match; greedy `[^.]*` takes everything up to the first dot, greedy
`(.*)` backtracks to the last ` \x7d\x7d` within its newline-free
stretch; a successful match is replaced and scanning resumes after it. -/

/-- The negative lookahead `(?!core.)`: blocks when the text starts with
`core` followed by any character other than a newline (regex `.`). -/
def isCore (l : List Char) : Bool :=
  startsWithL ['c', 'o', 'r', 'e'] l &&
    (match l.drop 4 with
     | c :: _ => c != '\n'
     | [] => false)

/-- `([^.]*)\.` : split at the first dot; `none` when no dot exists. -/
def g1Split : List Char → Option (List Char × List Char)
  | [] => none
  | c :: cs =>
    if c = '.' then some ([], cs)
    else (g1Split cs).map (fun p => (c :: p.1, p.2))

/-- `(.*) \x7d\x7d` with greedy `.*`: return the longest newline-free
prefix that is followed by the literal ` \x7d\x7d`, together with what
remains after that literal. -/
def findG2 : List Char → Option (List Char × List Char)
  | [] => none
  | c :: cs =>
    match (if c = '\n' then none
           else (findG2 cs).map (fun p => (c :: p.1, p.2))) with
    | some p => some p
    | none =>
      if c = ' ' then
        match cs with
        | '}' :: '}' :: rest => some ([], rest)
        | _ => none
      else none

/-- Try the whole pattern anchored at the head of `l`; on success return
(group 1, group 2, text after the match). -/
def matchAt : List Char → Option (List Char × List Char × List Char)
  | a :: b :: c :: rest =>
    if a = '{' ∧ b = '{' ∧ c = ' ' then
      if isCore rest then none
      else
        match g1Split rest with
        | some (g1, tail) =>
          match findG2 tail with
          | some (g2, r) => some (g1, g2, r)
          | none => none
        | none => none
    else none
  | _ => none

/-- The replacement text `\x7b\x7b "g1/g2" | lookup \x7d\x7d` (double
quotes, as in the source). -/
def repl (g1 g2 : List Char) : List Char :=
  ['{', '{', ' ', '"'] ++ g1 ++ '/' :: g2 ++
    ['"', ' ', '|', ' ', 'l', 'o', 'o', 'k', 'u', 'p', ' ', '}', '}']

/-- Left-to-right scan of `re.sub`, with fuel for termination; each step
consumes at least one character, so `l.length` fuel suffices. -/
def pySubAux : Nat → List Char → List Char
  | 0, l => l
  | _ + 1, [] => []
  | fuel + 1, c :: cs =>
    match matchAt (c :: cs) with
    | some (g1, g2, rest) => repl g1 g2 ++ pySubAux fuel rest
    | none => c :: pySubAux fuel cs

/-- `re.sub(r"...", r"...", s)` for the legacy-syntax pattern. -/
def pySub (l : List Char) : List Char := pySubAux l.length l

/-- `__apply_syntax_update`: `None`/empty input yields `None`; otherwise
every value is coerced with `str` and rewritten in place. -/
def apply_syntax_update (parameters : Option PMap) : Option PMap :=
  match parameters with
  | none => none
  | some [] => none
  | some m => some (m.map (fun kv => (kv.1, PVal.s (pySub (pyStr kv.2)))))

/-! ### Constants

Values of the `core_framework.constants` names used by the compiler:
the scope names (`SCOPE_*`), the tag keys (`TAG_*`) and the
deployment-placeholder markers (`DD_*`). -/

def scopePortfolio : String := "portfolio"
def scopeApp : String := "app"
def scopeBranch : String := "branch"
def scopeBuild : String := "build"

def tagPortfolio : String := "Portfolio"
def tagApp : String := "App"
def tagBranch : String := "Branch"
def tagBuild : String := "Build"

def markerPortfolio : String := "Portfolio"
def markerApp : String := "App"
def markerBranch : String := "Branch"
def markerBuild : String := "Build"

/-! ### Data model

`ActionRes` is the projection of an `ActionResource` onto the fields the
compiler reads: `label`, `kind`, `scope`, `depends_on`, the
account/region aliases inside `spec` (`accounts`/`Accounts`,
`account`/`Account`, same for regions), the stack-name aliases, and the
`parameters`/`tags` fields of the kind-validated spec.  `DD` models
`DeploymentDetails`.  Python truthiness on these optional fields is
`truthyS`/`truthyL`. -/

abbrev TagMap := List (String × String)

structure DD : Type where
  portfolio : Option String
  app : Option String
  branch : Option String
  build : Option String
  scope : Option String
  tags : Option TagMap
  deriving DecidableEq, Repr

structure ActionRes : Type where
  label : String
  kind : String
  scope : Option String
  dependsOn : List String
  accounts : Option (List String)
  accountsP : Option (List String)
  account : Option String
  accountP : Option String
  regions : Option (List String)
  regionsP : Option (List String)
  region : Option String
  regionP : Option String
  stackName : Option String
  stackNameP : Option String
  parameters : Option PMap
  tags : Option TagMap
  deriving DecidableEq, Repr

/-- Python truthiness of an optional string (`None` and `""` are falsy). -/
def truthyS : Option String → Bool
  | none => false
  | some s => s ≠ ""

/-- Python truthiness of an optional list (`None` and `[]` are falsy). -/
def truthyL : Option (List String) → Bool
  | some (_ :: _) => true
  | _ => false

def getS (o : Option String) : String := o.getD ""

/-- Flags of an action class from the registry: whether the validated
spec has the `template_url`, `parameters` and `tags` attributes. -/
structure KindInfo : Type where
  hasTemplateUrl : Bool
  hasParameters : Bool
  hasTags : Bool
  deriving DecidableEq, Repr

/-- The action kind registry (`ActionFactory`): `is_valid_action` is
`(registry k).isSome`, `get_action_class` is `registry k`. -/
abbrev Registry := String → Option KindInfo

/-- A compiled action (output of `generate_action_command`).  The
template-URL rewriting is not modelled (no claim concerns it). -/
structure CompiledAction : Type where
  name : String
  dependsOn : List String
  account : String
  region : String
  parameters : Option PMap
  tags : Option TagMap
  deriving DecidableEq, Repr

inductive CErr : Type
  | unknownKind (kind : String)
  | keyError (label : String)
  deriving DecidableEq, Repr

/-! ### `get_accounts_regions`, labels, label map -/

/-- `get_accounts_regions`: combine `accounts`/`Accounts` with
`account`/`Account` (appended when truthy and not already present), and
`regions`/`Regions` with `region`/`Region`, the latter defaulting to the
process default region (`util.get_region()`, passed as `defReg`). -/
def get_accounts_regions (defReg : String) (ar : ActionRes) :
    List String × List String :=
  let accounts0 :=
    if truthyL ar.accounts then ar.accounts.getD []
    else if truthyL ar.accountsP then ar.accountsP.getD [] else []
  let accountV :=
    if truthyS ar.account then getS ar.account
    else if truthyS ar.accountP then getS ar.accountP else ""
  let accounts :=
    if accountV ≠ "" ∧ accountV ∉ accounts0 then accounts0 ++ [accountV]
    else accounts0
  let regions0 :=
    if truthyL ar.regions then ar.regions.getD []
    else if truthyL ar.regionsP then ar.regionsP.getD [] else []
  let regionV :=
    if truthyS ar.region then getS ar.region
    else if truthyS ar.regionP then getS ar.regionP else defReg
  let regions :=
    if regionV ≠ "" ∧ regionV ∉ regions0 then regions0 ++ [regionV]
    else regions0
  (accounts, regions)

/-- `__get_action_name`: `f"{label}-{account}-{region}"`. -/
def get_action_name (ar : ActionRes) (account region : String) : String :=
  ar.label ++ "-" ++ account ++ "-" ++ region

/-- `get_region_account_labels`: one name per account/region pair,
accounts outer loop, regions inner loop. -/
def get_region_account_labels (defReg : String) (ar : ActionRes) :
    List String :=
  let ar' := get_accounts_regions defReg ar
  (ar'.1.map (fun a => ar'.2.map (fun r => get_action_name ar a r))).flatten

/-- `get_spec_label_map`: label → expanded names, for every action. -/
def get_spec_label_map (defReg : String) (actions : List ActionRes) :
    List (String × List String) :=
  actions.foldl
    (fun m ar => aset m ar.label (get_region_account_labels defReg ar)) []

/-! ### Scope and tags -/

/-- `__getany(action.spec, ["stack_name", "StackName"], "")`. -/
def stack_name_of (ar : ActionRes) : String :=
  if truthyS ar.stackName then getS ar.stackName
  else if truthyS ar.stackNameP then getS ar.stackNameP else ""

/-- `__get_stack_scope`: scan the stack name for deployment placeholder
markers in priority order build, branch, app, portfolio/"Project". -/
def get_stack_scope (stackName : String) : String :=
  if strIn markerBuild stackName then scopeBuild
  else if strIn markerBranch stackName then scopeBranch
  else if strIn markerApp stackName then scopeApp
  else if strIn markerPortfolio stackName || strIn "Project" stackName then
    scopePortfolio
  else scopeBuild

/-- `__get_action_scope`: action scope, else deployment scope, else
inference from the stack name. -/
def get_action_scope (ar : ActionRes) (dd : DD) : String :=
  if truthyS ar.scope then getS ar.scope
  else if truthyS dd.scope then getS dd.scope
  else get_stack_scope (stack_name_of ar)

/-- The computed-tag chain of `__get_tags` (before user tags). -/
def computed_tags (sc : String) (dd : DD) (t0 : TagMap) : TagMap :=
  let t1 := if truthyS dd.portfolio then
      aset t0 tagPortfolio (getS dd.portfolio) else t0
  let t2 := if (sc == scopeApp || sc == scopeBranch || sc == scopeBuild)
      && truthyS dd.app then aset t1 tagApp (getS dd.app) else t1
  let t3 := if (sc == scopeBranch || sc == scopeBuild)
      && truthyS dd.branch then aset t2 tagBranch (getS dd.branch) else t2
  if (sc == scopeBuild) && truthyS dd.build then
    aset t3 tagBuild (getS dd.build) else t3

/-- Whether `deployment_details.tags or \x7b\x7d` aliases the
deployment's own dict: it does exactly when that dict is truthy
(present and non-empty). -/
def ddAliased (dd : DD) : Bool :=
  match dd.tags with
  | some m => !m.isEmpty
  | none => false

/-- The dict the tag writes start from: the deployment's own when
truthy, a fresh empty one otherwise. -/
def tags0 (dd : DD) : TagMap :=
  if ddAliased dd then dd.tags.getD [] else []

/-- `if not scope: scope = scopeBuild`. -/
def eff_scope (scope : Option String) : String :=
  if truthyS scope then getS scope else scopeBuild

/-- The tag map after the computed tags and the `tags.update(user_tags)`
of `__get_tags`. -/
def final_tags (scope : Option String) (dd : DD) (user_tags : Option TagMap) :
    TagMap :=
  match user_tags with
  | some u => aupd (computed_tags (eff_scope scope) dd (tags0 dd)) u
  | none => computed_tags (eff_scope scope) dd (tags0 dd)

/-- `__get_tags`.  `tags = deployment_details.tags or \x7b\x7d` aliases
the deployment's own dict when it is truthy (a non-empty dict); every
write then mutates `deployment_details.tags` in place, which we model by
returning the updated `DD` alongside the result (`tags if len(tags) > 0
else None`). -/
def get_tags (scope : Option String) (dd : DD) (user_tags : Option TagMap) :
    Option TagMap × DD :=
  let t5 := final_tags scope dd user_tags
  (if t5.isEmpty then none else some t5,
   if ddAliased dd then { dd with tags := some t5 } else dd)

/-- Look a key up in an optional tag map. -/
def tag_in (r : Option TagMap) (k : String) : Option String :=
  r.bind (fun m => aget m k)

/-- The last binding of `k` in an optional user map (the value
`dict.update` leaves behind). -/
def lastBind (u : Option TagMap) (k : String) : Option String :=
  match u with
  | none => none
  | some m => aget m.reverse k

/-! ### Dependencies -/

/-- Look up each `depends_on` label in the label map in order and
concatenate; a missing label is a `KeyError`. -/
def dep_lists (lm : List (String × List String)) :
    List String → Except CErr (List String)
  | [] => .ok []
  | l :: rest =>
    match aget lm l with
    | none => .error (.keyError l)
    | some names =>
      match dep_lists lm rest with
      | .error e => .error e
      | .ok t => .ok (names ++ t)

/-- `__get_depends_on`: empty (or missing) `depends_on` yields `[]`
without touching the label map. -/
def get_depends_on (ar : ActionRes) (lm : List (String × List String)) :
    Except CErr (List String) :=
  if ar.dependsOn.isEmpty then .ok [] else dep_lists lm ar.dependsOn

/-! ### `generate_action_command`, `compile_action`,
`compile_deployspec` -/

/-- `generate_action_command` for one (account, region) pair: check the
kind against the registry, inject account/region, rewrite legacy
parameter syntax when the validated spec has `parameters`, attach tags
when it has `tags` (mutating the deployment details), and resolve
`depends_on` through the label map. -/
def generate_action_command (reg : Registry) (dd : DD) (ar : ActionRes)
    (lm : List (String × List String)) (account region : String) :
    Except CErr (CompiledAction × DD) :=
  match reg ar.kind with
  | none => .error (.unknownKind ar.kind)
  | some ki =>
    let params := if ki.hasParameters then
        match ar.parameters with
        | some m => if m.isEmpty then ar.parameters
            else apply_syntax_update ar.parameters
        | none => ar.parameters
      else ar.parameters
    let tgdd := if ki.hasTags then get_tags ar.scope dd ar.tags
      else (none, dd)
    match get_depends_on ar lm with
    | .error e => .error e
    | .ok ds =>
      .ok ({ name := get_action_name ar account region,
             dependsOn := ds,
             account := account,
             region := region,
             parameters := params,
             tags := tgdd.1 }, tgdd.2)

/-- The account/region fan-out loop of `compile_action`, threading the
deployment-details state through successive generated actions. -/
def compile_go (reg : Registry) (ar : ActionRes)
    (lm : List (String × List String)) :
    List (String × String) → DD → Except CErr (List CompiledAction × DD)
  | [], dd => .ok ([], dd)
  | (a, r) :: rest, dd =>
    match generate_action_command reg dd ar lm a r with
    | .error e => .error e
    | .ok (ca, dd') =>
      match compile_go reg ar lm rest dd' with
      | .error e => .error e
      | .ok (l, dd'') => .ok (ca :: l, dd'')

/-- `compile_action`: one generated action per (account, region) pair,
accounts outer loop, regions inner loop; no cardinality check of any
kind is performed. -/
def compile_action (defReg : String) (reg : Registry) (dd : DD)
    (ar : ActionRes) (lm : List (String × List String)) :
    Except CErr (List CompiledAction × DD) :=
  let ar' := get_accounts_regions defReg ar
  compile_go reg ar lm
    ((ar'.1.map (fun a => ar'.2.map (fun r => (a, r)))).flatten) dd

/-- The action loop of `compile_deployspec`: reject an unknown kind,
otherwise expand and accumulate. -/
def cds_go (defReg : String) (reg : Registry)
    (lm : List (String × List String)) :
    List ActionRes → DD → Except CErr (List CompiledAction × DD)
  | [], dd => .ok ([], dd)
  | ar :: rest, dd =>
    if (reg ar.kind).isSome then
      match compile_action defReg reg dd ar lm with
      | .error e => .error e
      | .ok (l, dd') =>
        match cds_go defReg reg lm rest dd' with
        | .error e => .error e
        | .ok (l', dd'') => .ok (l ++ l', dd'')
    else .error (.unknownKind ar.kind)

/-- `compile_deployspec`: build the label map for the whole spec first,
then compile every action in order. -/
def compile_deployspec (defReg : String) (reg : Registry) (dd : DD)
    (actions : List ActionRes) : Except CErr (List CompiledAction × DD) :=
  cds_go defReg reg (get_spec_label_map defReg actions) actions dd

/-- Number of compiled actions, `none` when compilation failed. -/
def compiledCount (r : Except CErr (List CompiledAction × DD)) :
    Option Nat :=
  match r with
  | .ok p => some p.1.length
  | .error _ => none

/-! ### Spec loader (`load_deployspec`, `__process_package_zip`) -/

/-- The actions of one parsed spec document. -/
abbrev DeploySpecM := List ActionRes

/-- One archive entry: its name, whether the recognized parser would
succeed on it, and the parsed document when it would. -/
structure ZipEntry : Type where
  name : String
  parses : Bool
  spec : DeploySpecM
  deriving DecidableEq, Repr

/-- `spec_mapping`: recognized spec file names and their task types. -/
def spec_mapping : List (String × String) :=
  [("deployspec.yaml", "deploy"), ("deployspec.json", "deploy"),
   ("planspec.yaml", "plan"), ("planspec.json", "plan"),
   ("applyspec.yaml", "apply"), ("applyspec.json", "apply"),
   ("teardownspec.yaml", "teardown"), ("teardownspec.json", "teardown")]

def recognized (name : String) : Bool := (aget spec_mapping name).isSome

/-- The entry loop of `__process_package_zip`: recognized entries are
parsed (a parse failure raises) and keyed by task; others are only
uploaded. -/
def process_entries : List ZipEntry → List (String × DeploySpecM) →
    Except Unit (List (String × DeploySpecM))
  | [], acc => .ok acc
  | e :: rest, acc =>
    if recognized e.name then
      if e.parses then
        process_entries rest
          (aset acc ((aget spec_mapping e.name).getD "") e.spec)
      else .error ()
    else process_entries rest acc

/-- `__process_package_zip`: after the loop, an archive with zero
recognized spec files raises. -/
def process_package_zip (entries : List ZipEntry) :
    Except Unit (List (String × DeploySpecM)) :=
  match process_entries entries [] with
  | .error e => .error e
  | .ok s => if s.isEmpty then .error () else .ok s

/-- The package reference of a task payload, as the loader sees it:
a falsy key, a `.zip` archive, or a single spec file. -/
inductive PackageRef : Type
  | missing
  | zipArchive (entries : List ZipEntry)
  | singleFile (name : String) (parses : Bool) (spec : DeploySpecM)

/-- `load_deployspec`: any exception along the way (missing key, parse
error, archive with no spec file, unsupported extension) is caught and
turned into `None`. -/
def load_deployspec (pkg : PackageRef) :
    Option (List (String × DeploySpecM)) :=
  match pkg with
  | .missing => none
  | .zipArchive entries =>
    match process_package_zip entries with
    | .error _ => none
    | .ok s => some s
  | .singleFile name parses spec =>
    if name.endsWith ".yaml" || name.endsWith ".yml"
        || name.endsWith ".json" then
      if recognized name then
        if parses then some [(((aget spec_mapping name).getD ""), spec)]
        else none
      else none
    else none

/-- What the Lambda handler does with the loader's result: a `None`
spec map aborts the run (the `specs.keys()` access raises and the
handler reports `COMPILE_FAILED` with no compiled output). -/
inductive HandlerResult : Type
  | compiled (tasks : List String)
  | failed
  deriving DecidableEq, Repr

def handler_on_specs : Option (List (String × DeploySpecM)) →
    HandlerResult
  | none => .failed
  | some s => .compiled (s.map (fun kv => kv.1))

/-! ### Fixtures used by concrete evaluations -/

/-- A single-target action kind (a user-management action): the registry
used in concrete evaluations. -/
def regUser : Registry := fun k =>
  if k = "AWS::CreateUser" then some ⟨false, false, false⟩ else none

def dd0 : DD :=
  { portfolio := none, app := none, branch := none, build := none,
    scope := none, tags := none }

def arBase : ActionRes :=
  { label := "create-user", kind := "AWS::CreateUser", scope := none,
    dependsOn := [], accounts := none, accountsP := none, account := none,
    accountP := none, regions := none, regionsP := none, region := none,
    regionP := none, stackName := none, stackNameP := none,
    parameters := none, tags := none }

/-- Two accounts, one region: a multi-target entry for a single-target
kind. -/
def arMulti : ActionRes :=
  { arBase with accounts := some ["123456789012", "123456789013"],
                region := some "us-east-1" }

/-- No account at all. -/
def arZero : ActionRes := { arBase with region := some "us-east-1" }

/-- The characters of `\x7b\x7b portfolio.name \x7d\x7d`. -/
def legacyInput : List Char :=
  ['{', '{', ' ', 'p', 'o', 'r', 't', 'f', 'o', 'l', 'i', 'o', '.',
   'n', 'a', 'm', 'e', ' ', '}', '}']

/-- What the code produces: `\x7b\x7b "portfolio/name" | lookup \x7d\x7d`
with double quotes. -/
def legacyOutputDq : List Char :=
  ['{', '{', ' ', '"', 'p', 'o', 'r', 't', 'f', 'o', 'l', 'i', 'o', '/',
   'n', 'a', 'm', 'e', '"', ' ', '|', ' ', 'l', 'o', 'o', 'k', 'u', 'p',
   ' ', '}', '}']

/-- What the spec, the docstring and the test expect: the same text with
single quotes (`Char.ofNat 39`). -/
def legacyOutputSq : List Char :=
  ['{', '{', ' ', Char.ofNat 39, 'p', 'o', 'r', 't', 'f', 'o', 'l', 'i',
   'o', '/', 'n', 'a', 'm', 'e', Char.ofNat 39, ' ', '|', ' ', 'l', 'o',
   'o', 'k', 'u', 'p', ' ', '}', '}']

/-- `\x7b\x7b a.b.c \x7d\x7d`: a legacy placeholder whose path contains a
dot. -/
def dottedInput : List Char :=
  ['{', '{', ' ', 'a', '.', 'b', '.', 'c', ' ', '}', '}']

/-- A two-account, two-region entry labelled `net`. -/
def arC1 : ActionRes :=
  { arBase with label := "net", accounts := some ["111", "222"],
                regions := some ["ue1", "uw2"] }

/-- An entry depending on the label `vpc`, targeting one account. -/
def arD : ActionRes :=
  { arBase with dependsOn := ["vpc"], accounts := some ["111"],
                region := some "ue1" }

/-- A label map giving `vpc` two expanded names. -/
def lmD : List (String × List String) :=
  [("vpc", ["vpc-111-ue1", "vpc-111-uw2"])]

/-- An entry whose kind is not in the registry. -/
def arBad : ActionRes := { arBase with label := "bad", kind := "Nope" }

/-- Deployment details with every naming field known. -/
def dd6 : DD :=
  { portfolio := some "pf", app := some "ap", branch := some "br",
    build := some "bd", scope := none, tags := none }

/-- User tags not colliding with any computed tag key. -/
def u6 : Option TagMap := some [("Extra", "x")]

/-- Deployment details whose tags dict is present and non-empty. -/
def dd10 : DD := { dd0 with tags := some [("Seed", "s")] }

def u10 : TagMap := [("Extra", "x")]

/-- An archive entry that is not a spec file. -/
def zeOther : ZipEntry := { name := "readme.md", parses := true, spec := [] }

/-- A recognized spec file that fails to parse. -/
def zeBadSpec : ZipEntry :=
  { name := "deployspec.yaml", parses := false, spec := [] }

/-- An action spec with an explicit scope. -/
def arS : ActionRes := { arBase with scope := some "app" }

/-- Deployment details with a default scope. -/
def ddS : DD := { dd0 with scope := some "branch" }

/-! ## Lemmas: association lists -/

theorem aget_aset_self {α : Type} (m : List (String × α)) (k : String)
    (v : α) : aget (aset m k v) k = some v := by
  induction m with
  | nil => simp [aset, aget]
  | cons kv t ih =>
    obtain ⟨k', v'⟩ := kv
    by_cases h : k' = k
    · simp [aset, h, aget]
    · simp [aset, h, aget, ih]

theorem aget_aset_ne {α : Type} (m : List (String × α)) (k k' : String)
    (v : α) (h : k ≠ k') : aget (aset m k v) k' = aget m k' := by
  induction m with
  | nil => simp [aset, aget, h]
  | cons kv t ih =>
    obtain ⟨k0, v0⟩ := kv
    by_cases h0 : k0 = k
    · subst h0
      simp [aset, aget, h]
    · simp [aset, h0, aget, ih]

theorem aset_ne_nil {α : Type} (m : List (String × α)) (k : String)
    (v : α) : aset m k v ≠ [] := by
  cases m with
  | nil => simp [aset]
  | cons kv t =>
    obtain ⟨k', v'⟩ := kv
    by_cases h : k' = k <;> simp [aset, h]

theorem aupd_ne_nil {α : Type} (u : List (String × α)) :
    ∀ m : List (String × α), m ≠ [] → aupd m u ≠ [] := by
  induction u with
  | nil => intro m hm; simpa [aupd] using hm
  | cons x u ih =>
    intro m hm
    have : aupd m (x :: u) = aupd (aset m x.1 x.2) u := rfl
    rw [this]
    exact ih _ (aset_ne_nil m x.1 x.2)

theorem aget_append_some {α : Type} (l₁ l₂ : List (String × α))
    (k : String) (v : α) (h : aget l₁ k = some v) :
    aget (l₁ ++ l₂) k = some v := by
  induction l₁ with
  | nil => simp [aget] at h
  | cons kv t ih =>
    obtain ⟨k', v'⟩ := kv
    by_cases hk : k' = k
    · simp [aget, hk] at h ⊢
      exact h
    · simp [aget, hk] at h ⊢
      exact ih h

theorem aget_append_none {α : Type} (l₁ l₂ : List (String × α))
    (k : String) (h : aget l₁ k = none) :
    aget (l₁ ++ l₂) k = aget l₂ k := by
  induction l₁ with
  | nil => simp
  | cons kv t ih =>
    obtain ⟨k', v'⟩ := kv
    by_cases hk : k' = k
    · simp [aget, hk] at h
    · simp [aget, hk] at h ⊢
      exact ih h

theorem aget_aupd {α : Type} (u : List (String × α)) :
    ∀ (m : List (String × α)) (k : String),
      aget (aupd m u) k =
        match aget u.reverse k with
        | some v => some v
        | none => aget m k := by
  induction u with
  | nil => intro m k; simp [aupd, aget]
  | cons x u ih =>
    intro m k
    obtain ⟨kx, vx⟩ := x
    have h1 : aupd m ((kx, vx) :: u) = aupd (aset m kx vx) u := rfl
    rw [h1, ih, List.reverse_cons]
    cases hrev : aget u.reverse k with
    | some v => rw [aget_append_some _ _ _ _ hrev]
    | none =>
      rw [aget_append_none _ _ _ hrev]
      by_cases hk : kx = k
      · subst hk
        simp [aget, aget_aset_self]
      · simp [aget, hk, aget_aset_ne _ _ _ _ hk]

theorem aget_ne_nil {α : Type} (m : List (String × α)) (k : String)
    (v : α) (h : aget m k = some v) : m ≠ [] := by
  intro hm
  subst hm
  simp [aget] at h

/-! ## Lemmas: the legacy-syntax matcher -/

theorem g1Split_append (ns t : List Char) (h : '.' ∉ ns) :
    g1Split (ns ++ '.' :: t) = some (ns, t) := by
  induction ns with
  | nil => simp [g1Split]
  | cons c cs ih =>
    have hc : c ≠ '.' := fun e => h (by simp [e])
    have h' : ('.' : Char) ∉ cs := fun hm => h (List.mem_cons_of_mem _ hm)
    simp [g1Split, hc, ih h']

theorem g1Split_none (l : List Char) (h : '.' ∉ l) : g1Split l = none := by
  induction l with
  | nil => rfl
  | cons c cs ih =>
    have hc : c ≠ '.' := fun e => h (by simp [e])
    have h' : ('.' : Char) ∉ cs := fun hm => h (List.mem_cons_of_mem _ hm)
    simp [g1Split, hc, ih h']

theorem findG2_append (p : List Char) (h : '\n' ∉ p) :
    findG2 (p ++ [' ', '}', '}']) = some (p, []) := by
  induction p with
  | nil => rfl
  | cons c cs ih =>
    have hc : c ≠ '\n' := fun e => h (by simp [e])
    have h' : ('\n' : Char) ∉ cs := fun hm => h (List.mem_cons_of_mem _ hm)
    rw [List.cons_append]
    simp [findG2, hc, ih h']

theorem startsWithL_core_append (ns t : List Char)
    (h : startsWithL ['c', 'o', 'r', 'e'] ns = false) :
    startsWithL ['c', 'o', 'r', 'e'] (ns ++ '.' :: t) = false := by
  cases ns with
  | nil => simp [startsWithL]
  | cons a ns1 =>
    cases ns1 with
    | nil => simp [startsWithL]
    | cons b ns2 =>
      cases ns2 with
      | nil => simp [startsWithL]
      | cons c3 ns3 =>
        cases ns3 with
        | nil => simp [startsWithL]
        | cons d ns4 =>
          simp [startsWithL] at h ⊢
          intro ha hb hc3
          exact h ha hb hc3

theorem isCore_append (ns t : List Char)
    (h : startsWithL ['c', 'o', 'r', 'e'] ns = false) :
    isCore (ns ++ '.' :: t) = false := by
  unfold isCore
  rw [startsWithL_core_append ns t h]
  rfl

theorem matchAt_canonical (ns path : List Char) (h1 : '.' ∉ ns)
    (h2 : startsWithL ['c', 'o', 'r', 'e'] ns = false) (h3 : '\n' ∉ path) :
    matchAt ('{' :: '{' :: ' ' ::
        (ns ++ '.' :: (path ++ [' ', '}', '}']))) = some (ns, path, []) := by
  show (if ('{' : Char) = '{' ∧ ('{' : Char) = '{' ∧ (' ' : Char) = ' ' then
      if isCore (ns ++ '.' :: (path ++ [' ', '}', '}'])) = true then none
      else
        match g1Split (ns ++ '.' :: (path ++ [' ', '}', '}'])) with
        | some (g1, tail) =>
          match findG2 tail with
          | some (g2, r) => some (g1, g2, r)
          | none => none
        | none => none
    else none) = some (ns, path, [])
  rw [if_pos ⟨rfl, rfl, rfl⟩]
  rw [isCore_append ns _ h2]
  simp only [Bool.false_eq_true, if_false]
  rw [g1Split_append ns _ h1]
  simp [findG2_append path h3]

theorem matchAt_none_noDot (l : List Char) (h : '.' ∉ l) :
    matchAt l = none := by
  match l with
  | [] => rfl
  | [_] => rfl
  | [_, _] => rfl
  | a :: b :: c :: rest =>
    show (if a = '{' ∧ b = '{' ∧ c = ' ' then
        if isCore rest = true then none
        else
          match g1Split rest with
          | some (g1, tail) =>
            match findG2 tail with
            | some (g2, r) => some (g1, g2, r)
            | none => none
          | none => none
      else none) = none
    by_cases hc : a = '{' ∧ b = '{' ∧ c = ' '
    · rw [if_pos hc]
      by_cases hic : isCore rest = true
      · rw [if_pos hic]
      · rw [if_neg hic]
        have hr : ('.' : Char) ∉ rest := fun hm => h (by simp [hm])
        rw [g1Split_none rest hr]
    · rw [if_neg hc]

theorem matchAt_none_noOpen (l : List Char) (h : '{' ∉ l) :
    matchAt l = none := by
  match l with
  | [] => rfl
  | [_] => rfl
  | [_, _] => rfl
  | a :: b :: c :: rest =>
    show (if a = '{' ∧ b = '{' ∧ c = ' ' then
        if isCore rest = true then none
        else
          match g1Split rest with
          | some (g1, tail) =>
            match findG2 tail with
            | some (g2, r) => some (g1, g2, r)
            | none => none
          | none => none
      else none) = none
    rw [if_neg]
    rintro ⟨rfl, -, -⟩
    exact h (by simp)

theorem pySubAux_nil (fuel : Nat) : pySubAux fuel [] = [] := by
  cases fuel <;> rfl

theorem pySubAux_fix_noDot (l : List Char) (h : '.' ∉ l) :
    ∀ fuel, pySubAux fuel l = l := by
  induction l with
  | nil => intro fuel; exact pySubAux_nil fuel
  | cons c cs ih =>
    intro fuel
    cases fuel with
    | zero => rfl
    | succ n =>
      have hm : matchAt (c :: cs) = none := matchAt_none_noDot _ h
      have hcs : ('.' : Char) ∉ cs := fun x => h (List.mem_cons_of_mem _ x)
      simp [pySubAux, hm, ih hcs]

theorem pySubAux_fix_noOpen (l : List Char) (h : '{' ∉ l) :
    ∀ fuel, pySubAux fuel l = l := by
  induction l with
  | nil => intro fuel; exact pySubAux_nil fuel
  | cons c cs ih =>
    intro fuel
    cases fuel with
    | zero => rfl
    | succ n =>
      have hm : matchAt (c :: cs) = none := matchAt_none_noOpen _ h
      have hcs : ('{' : Char) ∉ cs := fun x => h (List.mem_cons_of_mem _ x)
      simp [pySubAux, hm, ih hcs]

theorem pySub_fix_noDot (l : List Char) (h : '.' ∉ l) : pySub l = l :=
  pySubAux_fix_noDot l h _

theorem pySub_fix_noOpen (l : List Char) (h : '{' ∉ l) : pySub l = l :=
  pySubAux_fix_noOpen l h _

theorem pySub_canonical (ns path : List Char) (h1 : '.' ∉ ns)
    (h2 : startsWithL ['c', 'o', 'r', 'e'] ns = false) (h3 : '\n' ∉ path) :
    pySub ('{' :: '{' :: ' ' :: (ns ++ '.' :: (path ++ [' ', '}', '}']))) =
      repl ns path := by
  have hm := matchAt_canonical ns path h1 h2 h3
  show pySubAux ((ns ++ '.' :: (path ++ [' ', '}', '}'])).length + 3) _ = _
  simp [pySubAux, hm, pySubAux_nil]

/-! ## Lemmas: dependency resolution -/

theorem dep_lists_ok (lm : List (String × List String)) :
    ∀ ds : List String, (∀ l ∈ ds, (aget lm l).isSome) →
      dep_lists lm ds =
        .ok ((ds.map (fun l => (aget lm l).getD [])).flatten) := by
  intro ds
  induction ds with
  | nil => intro _; rfl
  | cons l rest ih =>
    intro h
    obtain ⟨names, hn⟩ := Option.isSome_iff_exists.mp (h l (by simp))
    have hrest := ih (fun x hx => h x (by simp [hx]))
    simp [dep_lists, hn, hrest]

theorem get_depends_on_ok (ar : ActionRes) (lm : List (String × List String))
    (h : ∀ l ∈ ar.dependsOn, (aget lm l).isSome) :
    get_depends_on ar lm =
      .ok ((ar.dependsOn.map (fun l => (aget lm l).getD [])).flatten) := by
  unfold get_depends_on
  by_cases he : ar.dependsOn.isEmpty
  · rw [if_pos he]
    have hnil : ar.dependsOn = [] := by
      cases hd : ar.dependsOn
      · rfl
      · rw [hd] at he; simp at he
    rw [hnil]
    rfl
  · rw [if_neg he]
    exact dep_lists_ok lm _ h

theorem dep_lists_missing (lm : List (String × List String)) :
    ∀ ds : List String, (∃ l ∈ ds, aget lm l = none) →
      ∃ l', aget lm l' = none ∧
        dep_lists lm ds = .error (.keyError l') := by
  intro ds
  induction ds with
  | nil => rintro ⟨l, hl, -⟩; simp at hl
  | cons x rest ih =>
    rintro ⟨l, hl, hnone⟩
    cases hx : aget lm x with
    | none => exact ⟨x, hx, by simp [dep_lists, hx]⟩
    | some names =>
      have hlr : l ∈ rest := by
        rcases List.mem_cons.mp hl with rfl | h
        · rw [hx] at hnone; exact absurd hnone (by simp)
        · exact h
      obtain ⟨l', hl', herr⟩ := ih ⟨l, hlr, hnone⟩
      exact ⟨l', hl', by simp [dep_lists, hx, herr]⟩

theorem get_depends_on_missing (ar : ActionRes)
    (lm : List (String × List String)) (l : String)
    (hl : l ∈ ar.dependsOn) (hmiss : aget lm l = none) :
    ∃ l', aget lm l' = none ∧
      get_depends_on ar lm = .error (.keyError l') := by
  have hne : ¬ ar.dependsOn.isEmpty = true := by
    cases hd : ar.dependsOn
    · rw [hd] at hl; simp at hl
    · simp [hd]
  obtain ⟨l', h1, h2⟩ := dep_lists_missing lm ar.dependsOn ⟨l, hl, hmiss⟩
  refine ⟨l', h1, ?_⟩
  unfold get_depends_on
  rw [if_neg hne]
  exact h2

/-! ## Lemmas: action generation and expansion -/

theorem generate_ok (reg : Registry) (ki : KindInfo) (ar : ActionRes)
    (lm : List (String × List String)) (ds : List String)
    (hreg : reg ar.kind = some ki) (hdep : get_depends_on ar lm = .ok ds)
    (dd : DD) (a r : String) :
    ∃ ca dd2, generate_action_command reg dd ar lm a r = .ok (ca, dd2) ∧
      ca.name = get_action_name ar a r ∧ ca.dependsOn = ds := by
  unfold generate_action_command
  simp only [hreg, hdep]
  exact ⟨_, _, rfl, rfl, rfl⟩

theorem generate_dep_error (reg : Registry) (ki : KindInfo) (ar : ActionRes)
    (lm : List (String × List String)) (e : CErr)
    (hreg : reg ar.kind = some ki) (herr : get_depends_on ar lm = .error e)
    (dd : DD) (a r : String) :
    generate_action_command reg dd ar lm a r = .error e := by
  unfold generate_action_command
  simp only [hreg, herr]

theorem compile_go_ok (reg : Registry) (ki : KindInfo) (ar : ActionRes)
    (lm : List (String × List String)) (ds : List String)
    (hreg : reg ar.kind = some ki) (hdep : get_depends_on ar lm = .ok ds) :
    ∀ (pairs : List (String × String)) (dd : DD), ∃ l dd2,
      compile_go reg ar lm pairs dd = .ok (l, dd2) ∧
      l.map (fun ca => ca.name) =
        pairs.map (fun p => get_action_name ar p.1 p.2) ∧
      ∀ ca ∈ l, ca.dependsOn = ds := by
  intro pairs
  induction pairs with
  | nil => intro dd; exact ⟨[], dd, rfl, rfl, by simp⟩
  | cons p rest ih =>
    intro dd
    obtain ⟨pa, pr⟩ := p
    obtain ⟨ca, dd', hgen, hname, hds⟩ :=
      generate_ok reg ki ar lm ds hreg hdep dd pa pr
    obtain ⟨l, dd'', hgo, hmap, hdep'⟩ := ih dd'
    refine ⟨ca :: l, dd'', ?_, ?_, ?_⟩
    · simp [compile_go, hgen, hgo]
    · simp [hmap, hname]
    · intro x hx
      rcases List.mem_cons.mp hx with rfl | hx
      · exact hds
      · exact hdep' x hx

theorem map_flatten_pairs (f : String → String → String)
    (as rs : List String) :
    (((as.map (fun a => rs.map (fun r => (a, r)))).flatten).map
        (fun p => f p.1 p.2)) =
      (as.map (fun a => rs.map (fun r => f a r))).flatten := by
  induction as with
  | nil => rfl
  | cons a as ih => simp [ih, List.map_map, Function.comp]

theorem compile_action_ok (defReg : String) (reg : Registry)
    (ki : KindInfo) (dd : DD) (ar : ActionRes)
    (lm : List (String × List String)) (ds : List String)
    (hreg : reg ar.kind = some ki) (hdep : get_depends_on ar lm = .ok ds) :
    ∃ out dd2, compile_action defReg reg dd ar lm = .ok (out, dd2) ∧
      out.map (fun ca => ca.name) = get_region_account_labels defReg ar ∧
      ∀ ca ∈ out, ca.dependsOn = ds := by
  obtain ⟨l, dd2, h1, h2, h3⟩ := compile_go_ok reg ki ar lm ds hreg hdep
    (((get_accounts_regions defReg ar).1.map (fun a =>
      (get_accounts_regions defReg ar).2.map (fun r => (a, r)))).flatten) dd
  refine ⟨l, dd2, h1, ?_, h3⟩
  rw [h2]
  unfold get_region_account_labels
  exact map_flatten_pairs (fun a r => get_action_name ar a r) _ _

theorem compile_action_dep_error (defReg : String) (reg : Registry)
    (ki : KindInfo) (dd : DD) (ar : ActionRes)
    (lm : List (String × List String)) (e : CErr)
    (hreg : reg ar.kind = some ki) (herr : get_depends_on ar lm = .error e)
    (hacc : (get_accounts_regions defReg ar).1 ≠ [])
    (hrgn : (get_accounts_regions defReg ar).2 ≠ []) :
    compile_action defReg reg dd ar lm = .error e := by
  obtain ⟨a, as, ha⟩ := List.exists_cons_of_ne_nil hacc
  obtain ⟨r, rs, hr⟩ := List.exists_cons_of_ne_nil hrgn
  unfold compile_action
  show compile_go reg ar lm
    (((get_accounts_regions defReg ar).1.map (fun a =>
      (get_accounts_regions defReg ar).2.map (fun r => (a, r)))).flatten) dd
    = Except.error e
  rw [ha, hr]
  simp [compile_go, generate_dep_error reg ki ar lm e hreg herr]

/-! ## Lemmas: the label map -/

theorem aget_foldl_preserved (defReg : String) (k : String)
    (v : List String) :
    ∀ (l : List ActionRes) (m : List (String × List String)),
      aget m k = some v →
      (∀ x ∈ l, x.label = k → get_region_account_labels defReg x = v) →
      aget (l.foldl (fun m ar =>
        aset m ar.label (get_region_account_labels defReg ar)) m) k =
        some v := by
  intro l
  induction l with
  | nil => intro m hm _; simpa using hm
  | cons x rest ih =>
    intro m hm hall
    rw [List.foldl_cons]
    apply ih
    · by_cases hx : x.label = k
      · rw [hx]
        rw [hall x (by simp) hx]
        exact aget_aset_self m k v
      · rw [aget_aset_ne _ _ _ _ hx]
        exact hm
    · intro y hy hyl
      exact hall y (List.mem_cons_of_mem _ hy) hyl

theorem label_map_lookup (defReg : String) (actions : List ActionRes)
    (ar : ActionRes) (hin : ar ∈ actions)
    (huniq : ∀ b ∈ actions, b.label = ar.label → b = ar) :
    aget (get_spec_label_map defReg actions) ar.label =
      some (get_region_account_labels defReg ar) := by
  obtain ⟨s, t, rfl⟩ := List.append_of_mem hin
  unfold get_spec_label_map
  rw [List.foldl_append, List.foldl_cons]
  apply aget_foldl_preserved
  · exact aget_aset_self _ _ _
  · intro x hx hxl
    have hxa : x = ar := huniq x (by simp [hx]) hxl
    rw [hxa]

/-! ## Lemmas: the deployspec loop -/

theorem cds_go_unknown (defReg : String) (reg : Registry)
    (lm : List (String × List String)) :
    ∀ (acts : List ActionRes) (dd : DD),
      (∀ a ∈ acts, ∀ l ∈ a.dependsOn, (aget lm l).isSome) →
      (∃ a ∈ acts, reg a.kind = none) →
      ∃ k, reg k = none ∧
        cds_go defReg reg lm acts dd = .error (.unknownKind k) := by
  intro acts
  induction acts with
  | nil => rintro dd - ⟨a, ha, -⟩; simp at ha
  | cons b rest ih =>
    rintro dd hlab ⟨a, ha, hbad⟩
    by_cases hb : (reg b.kind).isSome = true
    · obtain ⟨ki, hki⟩ := Option.isSome_iff_exists.mp hb
      have hdep := get_depends_on_ok b lm (hlab b (by simp))
      obtain ⟨out, dd2, hca, -, -⟩ :=
        compile_action_ok defReg reg ki dd b lm _ hki hdep
      have harest : a ∈ rest := by
        rcases List.mem_cons.mp ha with rfl | h
        · rw [hki] at hbad; simp at hbad
        · exact h
      obtain ⟨k, hk, hrest⟩ :=
        ih dd2 (fun x hx => hlab x (by simp [hx])) ⟨a, harest, hbad⟩
      refine ⟨k, hk, ?_⟩
      simp [cds_go, hb, hca, hrest]
    · refine ⟨b.kind, ?_, ?_⟩
      · cases hbk : reg b.kind with
        | none => rfl
        | some ki => rw [hbk] at hb; simp at hb
      · simp [cds_go, hb]

/-! ## Lemmas: tag composition -/

theorem aget_addif (b : Bool) (m : TagMap) (k k' v : String)
    (h : k ≠ k') : aget (if b then aset m k v else m) k' = aget m k' := by
  cases b <;> simp [aget_aset_ne _ _ _ _ h]

theorem aget_addif_self (b : Bool) (m : TagMap) (k v : String) :
    aget (if b then aset m k v else m) k =
      if b then some v else aget m k := by
  cases b <;> simp [aget_aset_self]

theorem addif_ne_nil (b : Bool) (m : TagMap) (k v : String)
    (hm : m ≠ []) : (if b then aset m k v else m) ≠ [] := by
  cases b
  · simpa using hm
  · simpa using aset_ne_nil m k v

theorem aget_computed_portfolio (sc : String) (dd : DD) (t0 : TagMap) :
    aget (computed_tags sc dd t0) tagPortfolio =
      if truthyS dd.portfolio then some (getS dd.portfolio)
      else aget t0 tagPortfolio := by
  simp only [computed_tags]
  rw [aget_addif _ _ _ _ _ (by decide), aget_addif _ _ _ _ _ (by decide),
    aget_addif _ _ _ _ _ (by decide), aget_addif_self]

theorem aget_computed_app (sc : String) (dd : DD) (t0 : TagMap) :
    aget (computed_tags sc dd t0) tagApp =
      if (sc == scopeApp || sc == scopeBranch || sc == scopeBuild)
          && truthyS dd.app then some (getS dd.app)
      else aget t0 tagApp := by
  simp only [computed_tags]
  rw [aget_addif _ _ _ _ _ (by decide), aget_addif _ _ _ _ _ (by decide),
    aget_addif_self, aget_addif _ _ _ _ _ (by decide)]

theorem aget_computed_branch (sc : String) (dd : DD) (t0 : TagMap) :
    aget (computed_tags sc dd t0) tagBranch =
      if (sc == scopeBranch || sc == scopeBuild)
          && truthyS dd.branch then some (getS dd.branch)
      else aget t0 tagBranch := by
  simp only [computed_tags]
  rw [aget_addif _ _ _ _ _ (by decide), aget_addif_self,
    aget_addif _ _ _ _ _ (by decide), aget_addif _ _ _ _ _ (by decide)]

theorem aget_computed_build (sc : String) (dd : DD) (t0 : TagMap) :
    aget (computed_tags sc dd t0) tagBuild =
      if (sc == scopeBuild) && truthyS dd.build then
        some (getS dd.build)
      else aget t0 tagBuild := by
  simp only [computed_tags]
  rw [aget_addif_self, aget_addif _ _ _ _ _ (by decide),
    aget_addif _ _ _ _ _ (by decide), aget_addif _ _ _ _ _ (by decide)]

theorem aget_computed_other (sc : String) (dd : DD) (t0 : TagMap)
    (k : String) (h1 : k ≠ tagPortfolio) (h2 : k ≠ tagApp)
    (h3 : k ≠ tagBranch) (h4 : k ≠ tagBuild) :
    aget (computed_tags sc dd t0) k = aget t0 k := by
  simp only [computed_tags]
  rw [aget_addif _ _ _ _ _ h4.symm, aget_addif _ _ _ _ _ h3.symm,
    aget_addif _ _ _ _ _ h2.symm, aget_addif _ _ _ _ _ h1.symm]

theorem computed_ne_nil (sc : String) (dd : DD) (t0 : TagMap)
    (h : t0 ≠ []) : computed_tags sc dd t0 ≠ [] := by
  simp only [computed_tags]
  exact addif_ne_nil _ _ _ _ (addif_ne_nil _ _ _ _
    (addif_ne_nil _ _ _ _ (addif_ne_nil _ _ _ _ h)))

theorem aget_final (scope : Option String) (dd : DD) (u : Option TagMap)
    (k : String) :
    aget (final_tags scope dd u) k =
      match lastBind u k with
      | some v => some v
      | none => aget (computed_tags (eff_scope scope) dd (tags0 dd)) k := by
  cases u with
  | none => simp [final_tags, lastBind]
  | some uu =>
    simp only [final_tags, lastBind]
    rw [aget_aupd]
    cases aget uu.reverse k <;> rfl

theorem tag_in_get_tags (scope : Option String) (dd : DD)
    (u : Option TagMap) (k : String) :
    tag_in (get_tags scope dd u).1 k = aget (final_tags scope dd u) k := by
  simp only [get_tags, tag_in]
  by_cases h : (final_tags scope dd u).isEmpty = true
  · have hnil : final_tags scope dd u = [] := by
      cases hd : final_tags scope dd u
      · rfl
      · rw [hd] at h; simp at h
    simp [h, hnil, aget]
  · simp [h]

theorem get_tags_fst_ne_some_nil (scope : Option String) (dd : DD)
    (u : Option TagMap) : (get_tags scope dd u).1 ≠ some [] := by
  simp only [get_tags]
  by_cases h : (final_tags scope dd u).isEmpty = true
  · simp [h]
  · simp only [h, if_false]
    intro he
    have : final_tags scope dd u = [] := by injection he
    rw [this] at h
    simp at h

theorem aget_tags0 (dd : DD) (k : String)
    (h : tag_in dd.tags k = none) : aget (tags0 dd) k = none := by
  unfold tags0 ddAliased
  cases hd : dd.tags with
  | none => simp [aget]
  | some m =>
    cases m with
    | nil => simp [aget]
    | cons a t =>
      rw [hd] at h
      simpa [tag_in] using h

theorem final_nil (scope : Option String) (dd : DD) (u : Option TagMap)
    (h0 : dd.tags = none ∨ dd.tags = some [])
    (hp : truthyS dd.portfolio = false) (ha : truthyS dd.app = false)
    (hb : truthyS dd.branch = false) (hbl : truthyS dd.build = false)
    (hu : u = none ∨ u = some []) : final_tags scope dd u = [] := by
  have ht0 : tags0 dd = [] := by
    rcases h0 with h | h <;> simp [tags0, ddAliased, h]
  have ht4 : computed_tags (eff_scope scope) dd (tags0 dd) = tags0 dd := by
    simp only [computed_tags]
    simp [hp, ha, hb, hbl]
  rw [ht0] at ht4
  rcases hu with rfl | rfl <;> simp [final_tags, ht0, ht4, aupd]

/-! ## Lemmas: the spec loader -/

theorem process_entries_no_rec :
    ∀ (l : List ZipEntry) (acc : List (String × DeploySpecM)),
      (∀ e ∈ l, recognized e.name = false) →
      process_entries l acc = .ok acc := by
  intro l
  induction l with
  | nil => intro acc _; rfl
  | cons x rest ih =>
    intro acc h
    have hx : recognized x.name = false := h x (by simp)
    simp [process_entries, hx]
    exact ih acc (fun e he => h e (by simp [he]))

theorem process_entries_fail :
    ∀ (l : List ZipEntry) (acc : List (String × DeploySpecM)),
      (∃ e ∈ l, recognized e.name = true ∧ e.parses = false) →
      process_entries l acc = .error () := by
  intro l
  induction l with
  | nil => rintro acc ⟨e, he, -⟩; simp at he
  | cons x rest ih =>
    rintro acc ⟨e, he, hrec, hparse⟩
    by_cases hx : recognized x.name = true
    · by_cases hp : x.parses = true
      · have herest : e ∈ rest := by
          rcases List.mem_cons.mp he with rfl | h
          · rw [hp] at hparse; simp at hparse
          · exact h
        simp [process_entries, hx, hp]
        exact ih _ ⟨e, herest, hrec, hparse⟩
      · simp [process_entries, hx, hp]
    · have herest : e ∈ rest := by
        rcases List.mem_cons.mp he with rfl | h
        · rw [hrec] at hx; simp at hx
        · exact h
      simp [process_entries, hx]
      exact ih _ ⟨e, herest, hrec, hparse⟩

/-! ## Claims -/

/-- C2: the code performs no cardinality check.  Compiling a
single-target kind (`AWS::CreateUser`, which does not allow multiple
stacks) with two resolved accounts silently yields two compiled actions,
and with zero resolved accounts silently yields zero compiled actions —
no `CardinalityError` is raised, contradicting the claim and the
function's own docstring. -/
theorem claim2_no_cardinality_check :
    compiledCount (compile_action "us-east-1" regUser dd0 arMulti []) =
      some 2 ∧
    compiledCount (compile_action "us-east-1" regUser dd0 arZero []) =
      some 0 :=
  ⟨by decide, by decide⟩

/-- C3: evaluating the parameter normalizer at the failing input: the
code rewrites `\x7b\x7b portfolio.name \x7d\x7d` to the double-quoted
`\x7b\x7b "portfolio/name" | lookup \x7d\x7d`, which differs from the
single-quoted form the claim, the docstring and the test expect. -/
theorem claim3_rewrite_double_quotes :
    apply_syntax_update (some [("BucketName", PVal.s legacyInput)]) =
      some [("BucketName", PVal.s legacyOutputDq)] ∧
    legacyOutputDq ≠ legacyOutputSq :=
  ⟨by decide, by decide⟩

/-- C4 counterexample: normalization is not idempotent.  The value
`\x7b\x7b a.b.c \x7d\x7d` is rewritten to `\x7b\x7b "a/b.c" | lookup
\x7d\x7d`, which still matches the pattern and is rewritten again by a
second pass. -/
theorem claim4_not_idempotent :
    apply_syntax_update
        (apply_syntax_update (some [("K", PVal.s dottedInput)])) ≠
      apply_syntax_update (some [("K", PVal.s dottedInput)]) := by
  decide

/-- C4 (amended): normalization is idempotent on parameter maps each of
whose values, once rewritten, contains no dot or no opening brace (so
the rewritten value admits no further match); it is not idempotent in
general. -/
theorem claim4_amended_idempotent (p : PMap)
    (h : ∀ kv ∈ p, ('.' ∉ pySub (pyStr kv.2)) ∨
      ('{' ∉ pySub (pyStr kv.2))) :
    apply_syntax_update (apply_syntax_update (some p)) =
      apply_syntax_update (some p) := by
  cases p with
  | nil => rfl
  | cons x xs =>
    have key : ((x :: xs).map (fun kv =>
          (kv.1, PVal.s (pySub (pyStr kv.2))))).map
        (fun kv => (kv.1, PVal.s (pySub (pyStr kv.2)))) =
        (x :: xs).map (fun kv => (kv.1, PVal.s (pySub (pyStr kv.2)))) := by
      rw [List.map_map]
      apply List.map_congr_left
      intro kv hkv
      rcases h kv hkv with hd | ho
      · show (kv.1, PVal.s (pySub (pySub (pyStr kv.2)))) =
          (kv.1, PVal.s (pySub (pyStr kv.2)))
        rw [pySub_fix_noDot _ hd]
      · show (kv.1, PVal.s (pySub (pySub (pyStr kv.2)))) =
          (kv.1, PVal.s (pySub (pyStr kv.2)))
        rw [pySub_fix_noOpen _ ho]
    simp only [apply_syntax_update, List.map_cons] at key ⊢
    rw [key]

theorem claim4_amended_idempotent_witness :
    (∀ kv ∈ [("BucketName", PVal.s legacyInput)],
      ('.' ∉ pySub (pyStr kv.2)) ∨ ('{' ∉ pySub (pyStr kv.2))) ∧
    apply_syntax_update
        (apply_syntax_update (some [("BucketName", PVal.s legacyInput)])) =
      apply_syntax_update (some [("BucketName", PVal.s legacyInput)]) :=
  ⟨by decide, claim4_amended_idempotent _ (by decide)⟩

/-- C1: when the resolved target set is accounts `[a1, a2]` and regions
`[r1, r2]`, the label resolver produces exactly the four names
`label-a1-r1, label-a1-r2, label-a2-r1, label-a2-r2` in that order
(accounts outer loop, regions inner loop), the spec label map holds the
same list for that label, and `compile_action` produces exactly four
compiled actions bearing those names in the same order. -/
theorem claim1_expansion_order (defReg a1 a2 r1 r2 : String)
    (ar : ActionRes) (actions : List ActionRes) (dd : DD) (reg : Registry)
    (ki : KindInfo) (hreg : reg ar.kind = some ki)
    (hin : ar ∈ actions)
    (huniq : ∀ b ∈ actions, b.label = ar.label → b = ar)
    (htgt : get_accounts_regions defReg ar = ([a1, a2], [r1, r2]))
    (hdep : ∀ l ∈ ar.dependsOn,
      (aget (get_spec_label_map defReg actions) l).isSome) :
    get_region_account_labels defReg ar =
      [get_action_name ar a1 r1, get_action_name ar a1 r2,
       get_action_name ar a2 r1, get_action_name ar a2 r2] ∧
    aget (get_spec_label_map defReg actions) ar.label =
      some [get_action_name ar a1 r1, get_action_name ar a1 r2,
            get_action_name ar a2 r1, get_action_name ar a2 r2] ∧
    ∃ out dd2, compile_action defReg reg dd ar
        (get_spec_label_map defReg actions) = .ok (out, dd2) ∧
      out.map (fun ca => ca.name) =
        [get_action_name ar a1 r1, get_action_name ar a1 r2,
         get_action_name ar a2 r1, get_action_name ar a2 r2] := by
  have hlabels : get_region_account_labels defReg ar =
      [get_action_name ar a1 r1, get_action_name ar a1 r2,
       get_action_name ar a2 r1, get_action_name ar a2 r2] := by
    simp [get_region_account_labels, htgt]
  refine ⟨hlabels, ?_, ?_⟩
  · rw [label_map_lookup defReg actions ar hin huniq, hlabels]
  · have hdep' := get_depends_on_ok ar _ hdep
    obtain ⟨out, dd2, h1, h2, -⟩ :=
      compile_action_ok defReg reg ki dd ar _ _ hreg hdep'
    exact ⟨out, dd2, h1, by rw [h2, hlabels]⟩

theorem claim1_expansion_order_witness :
    get_region_account_labels "ue1" arC1 =
      [get_action_name arC1 "111" "ue1", get_action_name arC1 "111" "uw2",
       get_action_name arC1 "222" "ue1",
       get_action_name arC1 "222" "uw2"] ∧
    aget (get_spec_label_map "ue1" [arC1]) arC1.label =
      some [get_action_name arC1 "111" "ue1",
            get_action_name arC1 "111" "uw2",
            get_action_name arC1 "222" "ue1",
            get_action_name arC1 "222" "uw2"] ∧
    ∃ out dd2, compile_action "ue1" regUser dd0 arC1
        (get_spec_label_map "ue1" [arC1]) = .ok (out, dd2) ∧
      out.map (fun ca => ca.name) =
        [get_action_name arC1 "111" "ue1",
         get_action_name arC1 "111" "uw2",
         get_action_name arC1 "222" "ue1",
         get_action_name arC1 "222" "uw2"] :=
  claim1_expansion_order "ue1" "111" "222" "ue1" "uw2" arC1 [arC1] dd0
    regUser ⟨false, false, false⟩ (by decide) (by decide) (by decide)
    (by decide) (by decide)

/-- C5: scope precedence, first match wins: an explicit (truthy) scope
on the action spec; else an explicit (truthy) default scope on the
deployment; else inference from the stack-name parameter by marker
priority build → branch → app → portfolio/"Project" → default build. -/
theorem claim5_scope_precedence (ar : ActionRes) (dd : DD) :
    (∀ s : String, ar.scope = some s → s ≠ "" →
      get_action_scope ar dd = s) ∧
    (truthyS ar.scope = false → ∀ s : String, dd.scope = some s →
      s ≠ "" → get_action_scope ar dd = s) ∧
    (truthyS ar.scope = false → truthyS dd.scope = false →
      get_action_scope ar dd = get_stack_scope (stack_name_of ar)) ∧
    (∀ sn : String,
      (strIn markerBuild sn = true → get_stack_scope sn = scopeBuild) ∧
      (strIn markerBuild sn = false → strIn markerBranch sn = true →
        get_stack_scope sn = scopeBranch) ∧
      (strIn markerBuild sn = false → strIn markerBranch sn = false →
        strIn markerApp sn = true → get_stack_scope sn = scopeApp) ∧
      (strIn markerBuild sn = false → strIn markerBranch sn = false →
        strIn markerApp sn = false →
        (strIn markerPortfolio sn = true ∨ strIn "Project" sn = true) →
        get_stack_scope sn = scopePortfolio) ∧
      (strIn markerBuild sn = false → strIn markerBranch sn = false →
        strIn markerApp sn = false → strIn markerPortfolio sn = false →
        strIn "Project" sn = false → get_stack_scope sn = scopeBuild)) := by
  refine ⟨?_, ?_, ?_, ?_⟩
  · intro s hs hne
    simp [get_action_scope, truthyS, hs, hne, getS]
  · intro h1 s hs hne
    unfold get_action_scope
    rw [h1]
    simp [truthyS, hs, hne, getS]
  · intro h1 h2
    simp [get_action_scope, h1, h2]
  · intro sn
    refine ⟨?_, ?_, ?_, ?_, ?_⟩
    · intro h1; simp [get_stack_scope, h1]
    · intro h1 h2; simp [get_stack_scope, h1, h2]
    · intro h1 h2 h3; simp [get_stack_scope, h1, h2, h3]
    · rintro h1 h2 h3 (h4 | h4) <;>
        simp [get_stack_scope, h1, h2, h3, h4]
    · intro h1 h2 h3 h4 h5
      simp [get_stack_scope, h1, h2, h3, h4, h5]

theorem claim5_scope_precedence_witness :
    get_action_scope arS dd0 = "app" ∧
    get_action_scope arBase ddS = "branch" ∧
    get_action_scope arBase dd0 = get_stack_scope (stack_name_of arBase) ∧
    get_stack_scope "x-Build-y" = scopeBuild ∧
    get_stack_scope "plain-name" = scopeBuild ∧
    get_stack_scope "x-Branch-y" = scopeBranch ∧
    get_stack_scope "x-App-y" = scopeApp ∧
    get_stack_scope "x-Project-y" = scopePortfolio :=
  ⟨(claim5_scope_precedence arS dd0).1 "app" rfl (by decide),
   (claim5_scope_precedence arBase ddS).2.1 (by decide) "branch" rfl
     (by decide),
   (claim5_scope_precedence arBase dd0).2.2.1 (by decide) (by decide),
   ((claim5_scope_precedence arBase dd0).2.2.2 "x-Build-y").1 (by decide),
   ((claim5_scope_precedence arBase dd0).2.2.2 "plain-name").2.2.2.2
     (by decide) (by decide) (by decide) (by decide) (by decide),
   ((claim5_scope_precedence arBase dd0).2.2.2 "x-Branch-y").2.1
     (by decide) (by decide),
   ((claim5_scope_precedence arBase dd0).2.2.2 "x-App-y").2.2.1
     (by decide) (by decide) (by decide),
   ((claim5_scope_precedence arBase dd0).2.2.2 "x-Project-y").2.2.2.1
     (by decide) (by decide) (by decide) (Or.inr (by decide))⟩

/-- C7: when every `depends_on` label is present in the label map, each
compiled expansion of the action carries the concatenation, in
`depends_on` order, of the labels' full expanded name lists (identical
for every expansion); a `depends_on` label absent from the label map is
a fatal `KeyError` at dependency-resolution time (whenever at least one
account/region pair is expanded). -/
theorem claim7_depends_on (defReg : String) (reg : Registry)
    (ki : KindInfo) (dd : DD) (ar : ActionRes)
    (lm : List (String × List String))
    (hreg : reg ar.kind = some ki) :
    ((∀ l ∈ ar.dependsOn, (aget lm l).isSome) →
      ∃ out dd2, compile_action defReg reg dd ar lm = .ok (out, dd2) ∧
        ∀ ca ∈ out, ca.dependsOn =
          (ar.dependsOn.map (fun l => (aget lm l).getD [])).flatten) ∧
    (∀ l ∈ ar.dependsOn, aget lm l = none →
      (get_accounts_regions defReg ar).1 ≠ [] →
      (get_accounts_regions defReg ar).2 ≠ [] →
      ∃ l', aget lm l' = none ∧
        compile_action defReg reg dd ar lm = .error (.keyError l')) := by
  constructor
  · intro h
    have hdep := get_depends_on_ok ar lm h
    obtain ⟨out, dd2, h1, -, h3⟩ :=
      compile_action_ok defReg reg ki dd ar lm _ hreg hdep
    exact ⟨out, dd2, h1, h3⟩
  · intro l hl hmiss hacc hrgn
    obtain ⟨l', hl', herr⟩ := get_depends_on_missing ar lm l hl hmiss
    exact ⟨l', hl',
      compile_action_dep_error defReg reg ki dd ar lm _ hreg herr hacc hrgn⟩

theorem claim7_depends_on_witness :
    (∃ out dd2, compile_action "ue1" regUser dd0 arD lmD =
        .ok (out, dd2) ∧
      ∀ ca ∈ out, ca.dependsOn =
        (arD.dependsOn.map (fun l => (aget lmD l).getD [])).flatten) ∧
    (∃ l', aget ([] : List (String × List String)) l' = none ∧
      compile_action "ue1" regUser dd0 arD [] = .error (.keyError l')) :=
  ⟨(claim7_depends_on "ue1" regUser ⟨false, false, false⟩ dd0 arD lmD
      (by decide)).1 (by decide),
   (claim7_depends_on "ue1" regUser ⟨false, false, false⟩ dd0 arD []
      (by decide)).2 "vpc" (by decide) (by decide) (by decide)
      (by decide)⟩

/-- C8: a deployspec containing an entry whose kind is not in the
registry never compiles to an action list: compilation aborts with an
unknown-action-kind error, wherever in the spec the unknown kind
appears (stated under the assumption that every `depends_on` label
resolves, so that no earlier `KeyError` pre-empts the kind check). -/
theorem claim8_unknown_kind (defReg : String) (reg : Registry) (dd : DD)
    (actions : List ActionRes)
    (hlab : ∀ a ∈ actions, ∀ l ∈ a.dependsOn,
      (aget (get_spec_label_map defReg actions) l).isSome)
    (a : ActionRes) (ha : a ∈ actions) (hbad : reg a.kind = none) :
    (∀ out, compile_deployspec defReg reg dd actions ≠ .ok out) ∧
    ∃ k, reg k = none ∧
      compile_deployspec defReg reg dd actions =
        .error (.unknownKind k) := by
  obtain ⟨k, hk, herr⟩ :=
    cds_go_unknown defReg reg (get_spec_label_map defReg actions) actions
      dd hlab ⟨a, ha, hbad⟩
  have hcd : compile_deployspec defReg reg dd actions =
      .error (.unknownKind k) := herr
  refine ⟨?_, ⟨k, hk, hcd⟩⟩
  intro out h
  rw [hcd] at h
  exact Except.noConfusion h

theorem claim8_unknown_kind_witness :
    (∀ out, compile_deployspec "ue1" regUser dd0 [arBase, arBad] ≠
      .ok out) ∧
    ∃ k, regUser k = none ∧
      compile_deployspec "ue1" regUser dd0 [arBase, arBad] =
        .error (.unknownKind k) :=
  claim8_unknown_kind "ue1" regUser dd0 [arBase, arBad] (by decide)
    arBad (by decide) (by decide)

/-- C9: the spec loader fails — yielding no spec map, which makes the
handler abort the whole compilation with no compiled output — whenever
the package reference is absent, the archive contains zero recognized
spec files, any recognized archive entry fails to parse, a single spec
file fails to parse, or a single file is not a recognized spec file. -/
theorem claim9_loader_failures :
    (load_deployspec .missing = none) ∧
    (∀ entries, (∀ e ∈ entries, recognized e.name = false) →
      load_deployspec (.zipArchive entries) = none) ∧
    (∀ entries,
      (∃ e ∈ entries, recognized e.name = true ∧ e.parses = false) →
      load_deployspec (.zipArchive entries) = none) ∧
    (∀ name spec, load_deployspec (.singleFile name false spec) = none) ∧
    (∀ name parses spec, recognized name = false →
      load_deployspec (.singleFile name parses spec) = none) ∧
    (handler_on_specs none = .failed) := by
  refine ⟨rfl, ?_, ?_, ?_, ?_, rfl⟩
  · intro entries h
    have hpe := process_entries_no_rec entries [] h
    simp [load_deployspec, process_package_zip, hpe]
  · intro entries h
    have hpe := process_entries_fail entries [] h
    simp [load_deployspec, process_package_zip, hpe]
  · intro name spec
    by_cases h1 : (name.endsWith ".yaml" || name.endsWith ".yml"
        || name.endsWith ".json") = true
    · by_cases h2 : recognized name = true
      · simp [load_deployspec, h1, h2]
      · simp [load_deployspec, h1, h2]
    · simp [load_deployspec, h1]
  · intro name parses spec h2
    by_cases h1 : (name.endsWith ".yaml" || name.endsWith ".yml"
        || name.endsWith ".json") = true
    · simp [load_deployspec, h1, h2]
    · simp [load_deployspec, h1]

theorem claim9_loader_failures_witness :
    load_deployspec (.zipArchive [zeOther]) = none ∧
    load_deployspec (.zipArchive [zeOther, zeBadSpec]) = none ∧
    load_deployspec (.singleFile "deployspec.yaml" false []) = none ∧
    load_deployspec (.singleFile "readme.md" true []) = none :=
  ⟨claim9_loader_failures.2.1 [zeOther] (by decide),
   claim9_loader_failures.2.2.1 [zeOther, zeBadSpec]
     ⟨zeBadSpec, by decide, by decide, by decide⟩,
   claim9_loader_failures.2.2.2.1 "deployspec.yaml" [],
   claim9_loader_failures.2.2.2.2.1 "readme.md" true [] (by decide)⟩

/-- C10: `__get_tags` aliases and mutates shared deployment state: when
`deployment_details.tags` is present (non-empty), the returned tag map
is the very map stored back into `deployment_details.tags`, and a user
tag attached while compiling one action persists in the deployment
details and leaks into the tag set computed for the next action of the
same run (when not overridden by a computed or later user tag). -/
theorem claim10_tags_alias_leak (dd : DD) (m : TagMap)
    (hm : dd.tags = some m) (hne : m ≠ [])
    (s1 s2 : Option String) (u : TagMap) :
    (∃ t, (get_tags s1 dd (some u)).1 = some t ∧
      (get_tags s1 dd (some u)).2.tags = some t) ∧
    (∀ k v, lastBind (some u) k = some v → k ≠ tagPortfolio →
      k ≠ tagApp → k ≠ tagBranch → k ≠ tagBuild →
      tag_in (get_tags s2 (get_tags s1 dd (some u)).2 none).1 k =
        some v) := by
  have hali : ddAliased dd = true := by
    rw [ddAliased, hm]
    cases m with
    | nil => exact absurd rfl hne
    | cons x t => simp
  have ht0 : tags0 dd = m := by simp [tags0, hali, hm]
  have hne5 : final_tags s1 dd (some u) ≠ [] := by
    unfold final_tags
    apply aupd_ne_nil
    apply computed_ne_nil
    rw [ht0]
    exact hne
  have hie : (final_tags s1 dd (some u)).isEmpty = false := by
    cases hd : final_tags s1 dd (some u) with
    | nil => exact absurd hd hne5
    | cons x t => simp
  constructor
  · refine ⟨final_tags s1 dd (some u), ?_, ?_⟩
    · simp [get_tags, hie]
    · simp [get_tags, hali]
  · intro k v hlast h1 h2 h3 h4
    have hdd1tags : (get_tags s1 dd (some u)).2.tags =
        some (final_tags s1 dd (some u)) := by
      simp [get_tags, hali]
    have hk1 : aget (final_tags s1 dd (some u)) k = some v := by
      rw [aget_final]
      simp only [hlast]
    have hali1 : ddAliased (get_tags s1 dd (some u)).2 = true := by
      rw [ddAliased, hdd1tags]
      simp [hie]
    have ht01 : tags0 (get_tags s1 dd (some u)).2 =
        final_tags s1 dd (some u) := by
      simp [tags0, hali1, hdd1tags]
    rw [tag_in_get_tags, aget_final]
    show aget (computed_tags (eff_scope s2) (get_tags s1 dd (some u)).2
      (tags0 (get_tags s1 dd (some u)).2)) k = some v
    rw [aget_computed_other _ _ _ _ h1 h2 h3 h4, ht01, hk1]

theorem claim10_tags_alias_leak_witness :
    (∃ t, (get_tags none dd10 (some u10)).1 = some t ∧
      (get_tags none dd10 (some u10)).2.tags = some t) ∧
    tag_in (get_tags none (get_tags none dd10 (some u10)).2 none).1
      "Extra" = some "x" :=
  ⟨(claim10_tags_alias_leak dd10 [("Seed", "s")] rfl (by decide) none
      none u10).1,
   (claim10_tags_alias_leak dd10 [("Seed", "s")] rfl (by decide) none
      none u10).2 "Extra" "x" (by decide) (by decide) (by decide)
      (by decide) (by decide)⟩

/-- C6: tag composition is hierarchical and cumulative.  The portfolio
tag is added whenever a portfolio value is known; the app tag only when
the effective scope is app, branch or build and an app value is known;
the branch tag only at scope branch or build; the build tag only at
scope build; user tags are merged last and override computed tags with
the same key; and the result is `None` — never an empty map — when no
tag could be computed. -/
theorem claim6_tag_composition (scope : Option String) (dd : DD)
    (u : Option TagMap) :
    (truthyS dd.portfolio = true → lastBind u tagPortfolio = none →
      tag_in (get_tags scope dd u).1 tagPortfolio =
        some (getS dd.portfolio)) ∧
    ((eff_scope scope = scopeApp ∨ eff_scope scope = scopeBranch ∨
        eff_scope scope = scopeBuild) →
      truthyS dd.app = true → lastBind u tagApp = none →
      tag_in (get_tags scope dd u).1 tagApp = some (getS dd.app)) ∧
    (eff_scope scope = scopePortfolio → tag_in dd.tags tagApp = none →
      lastBind u tagApp = none →
      tag_in (get_tags scope dd u).1 tagApp = none) ∧
    ((eff_scope scope = scopeBranch ∨ eff_scope scope = scopeBuild) →
      truthyS dd.branch = true → lastBind u tagBranch = none →
      tag_in (get_tags scope dd u).1 tagBranch =
        some (getS dd.branch)) ∧
    ((eff_scope scope = scopePortfolio ∨ eff_scope scope = scopeApp) →
      tag_in dd.tags tagBranch = none → lastBind u tagBranch = none →
      tag_in (get_tags scope dd u).1 tagBranch = none) ∧
    (eff_scope scope = scopeBuild → truthyS dd.build = true →
      lastBind u tagBuild = none →
      tag_in (get_tags scope dd u).1 tagBuild = some (getS dd.build)) ∧
    (eff_scope scope ≠ scopeBuild → tag_in dd.tags tagBuild = none →
      lastBind u tagBuild = none →
      tag_in (get_tags scope dd u).1 tagBuild = none) ∧
    (∀ k v, lastBind u k = some v →
      tag_in (get_tags scope dd u).1 k = some v) ∧
    ((dd.tags = none ∨ dd.tags = some []) → truthyS dd.portfolio = false →
      truthyS dd.app = false → truthyS dd.branch = false →
      truthyS dd.build = false → (u = none ∨ u = some []) →
      (get_tags scope dd u).1 = none) ∧
    (get_tags scope dd u).1 ≠ some [] := by
  refine ⟨?_, ?_, ?_, ?_, ?_, ?_, ?_, ?_, ?_,
    get_tags_fst_ne_some_nil scope dd u⟩
  · intro hp hlast
    rw [tag_in_get_tags, aget_final]
    simp only [hlast]
    rw [aget_computed_portfolio, if_pos hp]
  · intro hsc hap hlast
    rw [tag_in_get_tags, aget_final]
    simp only [hlast]
    rw [aget_computed_app]
    have hcond : ((eff_scope scope == scopeApp ||
        eff_scope scope == scopeBranch ||
        eff_scope scope == scopeBuild) && truthyS dd.app) = true := by
      rcases hsc with h | h | h <;> simp [h, hap]
    rw [if_pos hcond]
  · intro hsc htag hlast
    rw [tag_in_get_tags, aget_final]
    simp only [hlast]
    rw [aget_computed_app]
    have hcond : ((eff_scope scope == scopeApp ||
        eff_scope scope == scopeBranch ||
        eff_scope scope == scopeBuild) && truthyS dd.app) = false := by
      rw [hsc]
      simp [scopePortfolio, scopeApp, scopeBranch, scopeBuild]
    rw [if_neg (by simp [hcond]), aget_tags0 dd _ htag]
  · intro hsc hbr hlast
    rw [tag_in_get_tags, aget_final]
    simp only [hlast]
    rw [aget_computed_branch]
    have hcond : ((eff_scope scope == scopeBranch ||
        eff_scope scope == scopeBuild) && truthyS dd.branch) = true := by
      rcases hsc with h | h <;> simp [h, hbr]
    rw [if_pos hcond]
  · intro hsc htag hlast
    rw [tag_in_get_tags, aget_final]
    simp only [hlast]
    rw [aget_computed_branch]
    have hcond : ((eff_scope scope == scopeBranch ||
        eff_scope scope == scopeBuild) && truthyS dd.branch) = false := by
      rcases hsc with h | h <;>
        (rw [h];
         simp [scopePortfolio, scopeApp, scopeBranch, scopeBuild])
    rw [if_neg (by simp [hcond]), aget_tags0 dd _ htag]
  · intro hsc hbl hlast
    rw [tag_in_get_tags, aget_final]
    simp only [hlast]
    rw [aget_computed_build]
    have hcond : ((eff_scope scope == scopeBuild) &&
        truthyS dd.build) = true := by simp [hsc, hbl]
    rw [if_pos hcond]
  · intro hsc htag hlast
    rw [tag_in_get_tags, aget_final]
    simp only [hlast]
    rw [aget_computed_build]
    have hcond : ((eff_scope scope == scopeBuild) &&
        truthyS dd.build) = false := by
      have : (eff_scope scope == scopeBuild) = false := by
        simp [hsc]
      simp [this]
    rw [if_neg (by simp [hcond]), aget_tags0 dd _ htag]
  · intro k v hlast
    rw [tag_in_get_tags, aget_final]
    simp only [hlast]
  · intro h0 hp ha hb hbl hu
    have hnil := final_nil scope dd u h0 hp ha hb hbl hu
    simp [get_tags, hnil]

theorem claim6_tag_composition_witness :
    tag_in (get_tags (some "build") dd6 u6).1 tagPortfolio =
      some (getS dd6.portfolio) ∧
    tag_in (get_tags (some "build") dd6 u6).1 tagApp =
      some (getS dd6.app) ∧
    tag_in (get_tags (some "build") dd6 u6).1 tagBuild =
      some (getS dd6.build) ∧
    tag_in (get_tags (some "portfolio") dd6 u6).1 tagApp = none ∧
    tag_in (get_tags (some "build") dd6 u6).1 "Extra" = some "x" ∧
    (get_tags (some "portfolio") dd0 none).1 = none :=
  ⟨(claim6_tag_composition (some "build") dd6 u6).1 (by decide)
     (by decide),
   (claim6_tag_composition (some "build") dd6 u6).2.1
     (Or.inr (Or.inr (by decide))) (by decide) (by decide),
   (claim6_tag_composition (some "build") dd6 u6).2.2.2.2.2.1
     (by decide) (by decide) (by decide),
   (claim6_tag_composition (some "portfolio") dd6 u6).2.2.1 (by decide)
     (by decide) (by decide),
   (claim6_tag_composition (some "build") dd6 u6).2.2.2.2.2.2.2.1
     "Extra" "x" (by decide),
   (claim6_tag_composition (some "portfolio") dd0 none).2.2.2.2.2.2.2.2.1
     (Or.inl (by decide)) (by decide) (by decide) (by decide) (by decide)
     (Or.inl rfl)⟩

end DeploySpecCompiler
